import Mathlib

/-
Verification development for the price-history synchronization and caching
engine of the fbinv repository. The definitions below are shallow embeddings
of the Python functions in src/investment/datasource/base.py,
src/investment/datasource/twelve_data.py and
src/investment/core/security/base.py. Dates and datetimes are modelled as
integers (days or minutes or seconds since an epoch, as stated at each
definition); pandas DataFrames holding one time series are modelled as lists
of rows.
-/

namespace Fbinv

/-- One time-series row. The field date is the as_of_date (an integer day
index for daily data) and the field val stands for the tuple of value
columns (open, high, low, close). pandas compares exactly these value
columns, and not the index, in DataFrame.drop_duplicates. -/
structure Row where
  date : Int
  val : Int
  deriving DecidableEq, Repr

/-- Insertion step for the model of pandas sort_index. -/
def insertByDate (r : Row) : List Row → List Row
  | [] => [r]
  | x :: xs => if r.date ≤ x.date then r :: x :: xs else x :: insertByDate r xs

/-- Model of DataFrame.sort_index on the as_of_date index: a sort of the
rows by ascending date. pandas uses an unstable quicksort, so the relative
order of rows with equal dates is unspecified in the source; this model
fixes one concrete by-date sort. -/
def sortByDate (l : List Row) : List Row :=
  l.foldr insertByDate []

/-- Model of DataFrame.drop_duplicates with the default keep equal to
first: a row is kept exactly when its value columns were not seen on an
earlier row. The as_of_date index is ignored, as pandas documents:
indexes are not part of the duplicate comparison. -/
def dedupSeen (seen : List Int) : List Row → List Row
  | [] => []
  | r :: rs =>
      if r.val ∈ seen then dedupSeen seen rs
      else r :: dedupSeen (r.val :: seen) rs

/-- drop_duplicates starting from an empty seen set. -/
def dropDuplicates (l : List Row) : List Row := dedupSeen [] l

/-- The normalisation applied in BaseDataSource.get_price_history:
set_index on as_of_date, sort_index, drop_duplicates. -/
def dedupSortTs (l : List Row) : List Row := dropDuplicates (sortByDate l)

/-- min of the as_of_date column; only used on non-empty tables, as in the
source. -/
def minDate : List Row → Int
  | [] => 0
  | r :: rs => rs.foldl (fun a x => min a x.date) r.date

/-- max of the as_of_date column; only used on non-empty tables, as in the
source. -/
def maxDate : List Row → Int
  | [] => 0
  | r :: rs => rs.foldl (fun a x => max a x.date) r.date

deriving instance DecidableEq for Except

/-- Exceptions a remote call can raise, split the way the try block of
BaseDataSource._load_price_history_from_remote splits them: transient
covers DataSourceMethodException, AlphaVantageException and
TwelveDataException, which that try block catches; fatal covers every
other exception (for example the KeyError raised by
_get_price_history_from_remote for an unconfigured entity type), which
propagates. -/
inductive RErr where
  | transient
  | fatal
  deriving DecidableEq, Repr

/-- Result of BaseDataSource._load_price_history_from_remote. dfRemote is
the returned frame, with error meaning an uncaught exception propagates;
calls records every dispatch through _get_price_history_from_remote with
its start and end date; warns counts warnings emitted. -/
structure RemoteLoad where
  dfRemote : Except Unit (List Row)
  calls : List (Int × Int)
  warns : Nat
  deriving DecidableEq, Repr

/-- Shallow embedding of BaseDataSource._load_price_history_from_remote.
fetch stands for _get_price_history_from_remote composed with the
normalisation hook; rangeRes stands for the outcome of
_default_start_and_end_date, which may itself raise (TwelveDataException
when a start date mapping is missing); symbol is the getattr lookup of the
provider specific code; df is the cached local table. Partial results are
kept when a later fetch raises a caught exception, exactly as the Python
df_to_concat list survives the except clause. -/
def loadPriceHistoryFromRemote (fetch : Int → Int → Except RErr (List Row))
    (rangeRes : Except RErr (Int × Int)) (symbol : Option String)
    (df : List Row) : RemoteLoad :=
  match symbol with
  | none => ⟨.ok df, [], 1⟩
  | some _ =>
    match rangeRes with
    | .error .fatal => ⟨.error (), [], 0⟩
    | .error .transient => ⟨.ok [], [], 1⟩
    | .ok (s, e) =>
      if df = [] then
        match fetch s e with
        | .error .fatal => ⟨.error (), [(s, e)], 0⟩
        | .error .transient => ⟨.ok [], [(s, e)], 1⟩
        | .ok rows => ⟨.ok rows, [(s, e)], 0⟩
      else
        let mn := minDate df
        let mx := maxDate df
        if mn > s then
          match fetch s mn with
          | .error .fatal => ⟨.error (), [(s, mn)], 0⟩
          | .error .transient => ⟨.ok [], [(s, mn)], 1⟩
          | .ok r1 =>
            if mx < e then
              match fetch mx e with
              | .error .fatal => ⟨.error (), [(s, mn), (mx, e)], 0⟩
              | .error .transient => ⟨.ok r1, [(s, mn), (mx, e)], 1⟩
              | .ok r2 => ⟨.ok (r1 ++ r2), [(s, mn), (mx, e)], 0⟩
            else ⟨.ok r1, [(s, mn)], 0⟩
        else if mx < e then
          match fetch mx e with
          | .error .fatal => ⟨.error (), [(mx, e)], 0⟩
          | .error .transient => ⟨.ok [], [(mx, e)], 1⟩
          | .ok r2 => ⟨.ok r2, [(mx, e)], 0⟩
        else ⟨.ok [], [], 0⟩

/-- Result of BaseDataSource.get_price_history. outcome is the returned
frame, with error meaning an uncaught exception propagates; writes lists
the contents handed to _write_timeseries_to_local, in order. -/
structure SyncResult where
  outcome : Except Unit (List Row)
  calls : List (Int × Int)
  writes : List (List Row)
  warns : Nat
  deriving DecidableEq, Repr

/-- Shallow embedding of BaseDataSource.get_price_history. dfLocal is the
table read from the cache file. When intraday is requested the source
raises DataSourceMethodException at once. The early return the source
performs when the concatenation of a non-empty remote frame with the local
frame is empty coincides with the skipped write on an empty frame, so both
appear here as the single empty check before the write. -/
def getPriceHistory (fetch : Int → Int → Except RErr (List Row))
    (rangeRes : Except RErr (Int × Int)) (symbol : Option String)
    (dfLocal : List Row) (intraday localOnly : Bool) : SyncResult :=
  if intraday then ⟨.error (), [], [], 0⟩
  else
    let rl : RemoteLoad :=
      if localOnly then ⟨.ok [], [], 0⟩
      else loadPriceHistoryFromRemote fetch rangeRes symbol dfLocal
    match rl.dfRemote with
    | .error u => ⟨.error u, rl.calls, [], rl.warns⟩
    | .ok dfRemote =>
      let df := if dfRemote = [] then dfLocal else dfRemote ++ dfLocal
      if df = [] then ⟨.ok df, rl.calls, [], rl.warns⟩
      else
        let merged := dedupSortTs df
        ⟨.ok merged, rl.calls, [merged], rl.warns⟩

/-- The per-security inputs a bulk update run feeds to get_price_history:
the security code, the provider symbol lookup, the date-range hook
outcome, the dispatch fetcher, and the cached local table. -/
structure SecSync where
  code : String
  symbol : Option String
  rangeRes : Except RErr (Int × Int)
  fetch : Int → Int → Except RErr (List Row)
  dfLocal : List Row

/-- Shallow embedding of BaseDataSource.update_price_history: iterate the
known securities in order, call get_price_history for each, and record
whether the resulting frame is non-empty. The loop body has no exception
handler, so an uncaught exception from one security aborts the whole run
and no dictionary is returned. -/
def updatePriceHistory : List SecSync → Except Unit (List (String × Bool))
  | [] => .ok []
  | s :: rest =>
    match (getPriceHistory s.fetch s.rangeRes s.symbol s.dfLocal false
        false).outcome with
    | .error u => .error u
    | .ok df =>
      match updatePriceHistory rest with
      | .error u => .error u
      | .ok m => .ok ((s.code, decide (df ≠ [])) :: m)

/-- Shared rate limiter state of TwelveDataDataSource: the UTC window start
(modelled in seconds) and the number of requests counted in the current
window. -/
structure RLState where
  ws : Int
  ctr : Nat
  deriving DecidableEq, Repr

/-- Shallow embedding of TwelveDataDataSource._respect_rate_limit for one
call arriving at wall clock second now, with per window maximum k. The
window length timedelta(minutes=1) is 60 seconds. Returns the state after
the call together with the instant at which the guarded API request is
issued: now itself, or the end of the sleep when the counter was full.
After the sleep the source stamps window_start with a fresh utcnow and
resets the counter to zero before the final increment. -/
def respectRateLimit (k : Nat) (st : RLState) (now : Int) : RLState × Int :=
  let st1 : RLState := if now - st.ws ≥ 60 then ⟨now, 0⟩ else st
  if st1.ctr ≥ k then
    let wait := 60 - (now - st1.ws)
    let t := if wait > 0 then now + wait else now
    (⟨t, 0 + 1⟩, t)
  else (⟨st1.ws, st1.ctr + 1⟩, now)

/-- A sequence of rate limited calls. Each list entry is the delay from the
instant the previous call was issued to the arrival of the next one, so the
arrivals respect the sequential wall clock of the source. Returns, for
every call, the instant it was issued and the window start recorded for
it. -/
def rlTrace (k : Nat) (st : RLState) (prev : Int) : List Nat → List (Int × Int)
  | [] => []
  | d :: ds =>
    let now := prev + (d : Int)
    let p := respectRateLimit k st now
    (p.2, p.1.ws) :: rlTrace k p.1 p.2 ds

/-- How many issued calls of a trace fall inside the sliding window that
opens just after instant t and closes at t + 60 inclusive. -/
def slidingCount (tr : List (Int × Int)) (t : Int) : Nat :=
  (tr.filter (fun p => t < p.1 && p.1 ≤ t + 60)).length

/-- How many issued calls of a trace were counted against the limiter
window that starts at w. -/
def windowCount (tr : List (Int × Int)) (w : Int) : Nat :=
  (tr.filter (fun p => p.2 = w)).length

/-- One day expressed in the minute resolution datetime model used for the
TwelveData window planner. -/
def dayM : Int := 1440

/-- The while loop of TwelveDataDataSource._get_dates: starting from
current start cs, emit (cs, min (cs + delta) shiftedEnd) and restart one
day after the emitted end, while cs has not passed shiftedEnd. delta is in
minutes. -/
def getDatesAux (delta : Nat) (shiftedEnd : Int) (cs : Int) : List (Int × Int) :=
  if _h : cs ≤ shiftedEnd then
    let ce := min (cs + (delta : Int)) shiftedEnd
    (cs, ce) :: getDatesAux delta shiftedEnd (ce + dayM)
  else []
termination_by (shiftedEnd + 1 - cs).toNat
decreasing_by
  simp only [dayM]
  omega

/-- Shallow embedding of TwelveDataDataSource._get_dates with datetimes in
minutes. The end date is first shifted by the two day buffer the API
requires; the per call span is output_size minutes for intraday data and
output_size - 1 days for daily data. -/
def getDates (outputSize : Nat) (startD endD : Int) (intraday : Bool) :
    List (Int × Int) :=
  let shiftedEnd := endD + 2 * dayM
  let delta : Nat := if intraday then outputSize else (outputSize - 1) * 1440
  getDatesAux delta shiftedEnd startD

/-- The attributes of a security that Security.get_file_path consults: the
mapping code, the entity type, the figi code, and for each datasource name
the optional provider specific attribute named by that datasource. -/
structure SecurityAttrs where
  code : String
  entityType : String
  figiCode : Option String
  codes : String → Option String

/-- Model of the python expression _code.replace removing every slash. -/
def stripSlashes (s : String) : String :=
  ⟨s.data.filter (fun c => c ≠ '/')⟩

/-- Shallow embedding of Security.get_file_path from
src/investment/core/security/base.py, with base standing for the
configured TIMESERIES_DATA_PATH. For the local datasource the source binds
the literal string code, and for the open_figi datasource the literal
string figi_code, to the variable from which the file symbol is built;
only the remaining datasources look up the provider specific attribute. A
missing attribute is rendered by the f-string as None, and a falsy empty
string skips the slash stripping. -/
def getFilePath (base : String) (sec : SecurityAttrs) (datasourceName : String)
    (intraday : Bool) (seriesType : String) : String :=
  let c : Option String :=
    if datasourceName = "local" then some "code"
    else if datasourceName = "open_figi" then some "figi_code"
    else sec.codes datasourceName
  let code : String :=
    match c with
    | none => "None"
    | some s => if s = "" then "" else stripSlashes s
  let dataFrequency : String := if intraday then "intraday" else "daily"
  let pathName := base ++ "/" ++ seriesType ++ "/" ++ datasourceName ++ "/" ++ sec.entityType
  let fileName := code ++ "-" ++ dataFrequency ++ "-" ++ seriesType ++ ".csv"
  pathName ++ "/" ++ fileName

/-- The path formula exactly as claim C9 words it, for comparison with the
source translation getFilePath: provider name, then series kind, then
category, then symbol-frequency-seriesKind, where the symbol is the
security code for the local provider and the figi or provider specific
code for remote providers, slashes stripped. -/
def claimFilePathC9 (base : String) (sec : SecurityAttrs)
    (datasourceName : String) (intraday : Bool) (seriesType : String) : String :=
  let rawSymbol : String :=
    if datasourceName = "local" then sec.code
    else if datasourceName = "open_figi" then (sec.figiCode).getD ""
    else (sec.codes datasourceName).getD ""
  let frequency : String := if intraday then "intraday" else "daily"
  base ++ "/" ++ datasourceName ++ "/" ++ seriesType ++ "/" ++ sec.entityType ++
    "/" ++ stripSlashes rawSymbol ++ "-" ++ frequency ++ "-" ++ seriesType ++ ".csv"

/-- The symbol actually used by the source inside the cache file name: the
literal attribute name for the local and open_figi datasources, otherwise
the optional provider attribute, slash stripped when present and truthy,
rendered None when missing. -/
def actualFileSymbol (sec : SecurityAttrs) (datasourceName : String) : String :=
  if datasourceName = "local" then "code"
  else if datasourceName = "open_figi" then "figi_code"
  else
    match sec.codes datasourceName with
    | none => "None"
    | some s => if s = "" then "" else stripSlashes s

/-- The cache file invariant stated by the spec data model: as_of_date
strictly ascending along the table, hence unique. -/
def StrictSortedD (l : List Row) : Prop :=
  l.Pairwise (fun a b => a.date < b.date)

/-- All value tuples of a table pairwise distinct. -/
def DistinctVals (l : List Row) : Prop :=
  l.Pairwise (fun a b => a.val ≠ b.val)

instance decStrictSortedD : (l : List Row) → Decidable (StrictSortedD l)
  | [] => .isTrue List.Pairwise.nil
  | a :: t =>
    have : Decidable (StrictSortedD t) := decStrictSortedD t
    decidable_of_iff ((∀ x ∈ t, a.date < x.date) ∧ StrictSortedD t)
      (by simp [StrictSortedD, List.pairwise_cons])

instance decDistinctVals : (l : List Row) → Decidable (DistinctVals l)
  | [] => .isTrue List.Pairwise.nil
  | a :: t =>
    have : Decidable (DistinctVals t) := decDistinctVals t
    decidable_of_iff ((∀ x ∈ t, a.val ≠ x.val) ∧ DistinctVals t)
      (by simp [DistinctVals, List.pairwise_cons])

/-- Each row duplicated in place; the shape sort_index gives to the
concatenation of a strictly sorted table with itself. -/
def dup2 : List Row → List Row
  | [] => []
  | a :: t => a :: a :: dup2 t

/-- The frame (or propagated exception) a single security sync produces
during a bulk update run. -/
def syncOutcome (sec : SecSync) : Except Unit (List Row) :=
  (getPriceHistory sec.fetch sec.rangeRes sec.symbol sec.dfLocal false false).outcome

/-- Whether get_price_history returned without exception. -/
def isOkE : Except Unit (List Row) → Bool
  | .ok _ => true
  | .error _ => false

/-- The per security flag update_price_history records: the resulting
frame is non-empty. -/
def syncSuccess (sec : SecSync) : Bool :=
  match syncOutcome sec with
  | .ok df => decide (df ≠ [])
  | .error _ => false

theorem sortByDate_cons (a : Row) (t : List Row) :
    sortByDate (a :: t) = insertByDate a (sortByDate t) := rfl

theorem insertByDate_le (a : Row) (t : List Row)
    (h : ∀ x ∈ t, a.date ≤ x.date) : insertByDate a t = a :: t := by
  cases t with
  | nil => rfl
  | cons x xs => simp [insertByDate, h x (List.mem_cons_self x xs)]

theorem strictSortedD_le {l : List Row} (h : StrictSortedD l) :
    l.Pairwise (fun a b => a.date ≤ b.date) :=
  h.imp le_of_lt

theorem sortByDate_sorted (l : List Row)
    (h : l.Pairwise (fun a b => a.date ≤ b.date)) : sortByDate l = l := by
  induction l with
  | nil => rfl
  | cons a t ih =>
    rcases List.pairwise_cons.mp h with ⟨ha, ht⟩
    rw [sortByDate_cons, ih ht, insertByDate_le a t ha]

theorem foldr_insert_skip (a : Row) (m : List Row) (base : List Row)
    (h : ∀ r ∈ m, a.date < r.date) :
    m.foldr insertByDate (a :: base) = a :: m.foldr insertByDate base := by
  induction m with
  | nil => rfl
  | cons x xs ih =>
    have hx : a.date < x.date := h x (List.mem_cons_self x xs)
    simp only [List.foldr_cons]
    rw [ih (fun r hr => h r (List.mem_cons_of_mem x hr))]
    simp [insertByDate, not_le.mpr hx]

theorem foldr_insert_self (l : List Row) (h : StrictSortedD l) :
    l.foldr insertByDate l = dup2 l := by
  induction l with
  | nil => rfl
  | cons a t ih =>
    rcases List.pairwise_cons.mp h with ⟨ha, ht⟩
    show insertByDate a (t.foldr insertByDate (a :: t)) = dup2 (a :: t)
    rw [foldr_insert_skip a t t ha, ih ht]
    simp [insertByDate, dup2]

theorem sortByDate_append (l m : List Row) :
    sortByDate (l ++ m) = l.foldr insertByDate (sortByDate m) := by
  simp [sortByDate, List.foldr_append]

theorem sortByDate_double (l : List Row) (h : StrictSortedD l) :
    sortByDate (l ++ l) = dup2 l := by
  rw [sortByDate_append, sortByDate_sorted l (strictSortedD_le h),
    foldr_insert_self l h]

theorem dedupSeen_dup2 (l : List Row) :
    ∀ seen, dedupSeen seen (dup2 l) = dedupSeen seen l := by
  induction l with
  | nil => intro _; rfl
  | cons a t ih =>
    intro seen
    by_cases h : a.val ∈ seen
    · simp [dup2, dedupSeen, h, ih]
    · simp [dup2, dedupSeen, h, ih]

theorem dedupSeen_distinct (l : List Row) :
    ∀ seen, (∀ r ∈ l, r.val ∉ seen) → DistinctVals l →
      dedupSeen seen l = l := by
  induction l with
  | nil => intro _ _ _; rfl
  | cons a t ih =>
    intro seen hs hd
    rcases List.pairwise_cons.mp hd with ⟨ha, ht⟩
    have hna : a.val ∉ seen := hs a (List.mem_cons_self a t)
    simp only [dedupSeen, if_neg hna]
    congr 1
    apply ih _ _ ht
    intro r hr
    simp only [List.mem_cons, not_or]
    exact ⟨fun hv => ha r hr hv.symm, hs r (List.mem_cons_of_mem a hr)⟩

theorem dedupSortTs_canonical (l : List Row) (hs : StrictSortedD l)
    (hv : DistinctVals l) : dedupSortTs l = l := by
  rw [dedupSortTs, sortByDate_sorted l (strictSortedD_le hs), dropDuplicates]
  exact dedupSeen_distinct l [] (by simp) hv

theorem dedupSortTs_double (l : List Row) (hs : StrictSortedD l) :
    dedupSortTs (l ++ l) = dedupSortTs l := by
  rw [dedupSortTs, sortByDate_double l hs, dropDuplicates, dedupSeen_dup2]
  rw [dedupSortTs, sortByDate_sorted l (strictSortedD_le hs), dropDuplicates]

theorem gph_calls (fetch : Int → Int → Except RErr (List Row))
    (rangeRes : Except RErr (Int × Int)) (symb : Option String)
    (df : List Row) :
    (getPriceHistory fetch rangeRes symb df false false).calls
      = (loadPriceHistoryFromRemote fetch rangeRes symb df).calls := by
  simp only [getPriceHistory, Bool.false_eq_true, if_false]
  cases h : (loadPriceHistoryFromRemote fetch rangeRes symb df).dfRemote with
  | error u => simp [h]
  | ok dr =>
    simp only [h]
    split <;> split <;> rfl

theorem load_noGap (fetch : Int → Int → Except RErr (List Row))
    (s e : Int) (symb : String) (df : List Row)
    (hne : df ≠ []) (hlow : minDate df ≤ s) (hup : e ≤ maxDate df) :
    loadPriceHistoryFromRemote fetch (.ok (s, e)) (some symb) df
      = ⟨.ok [], [], 0⟩ := by
  simp only [loadPriceHistoryFromRemote, if_neg hne, if_neg (not_lt.mpr hlow),
    if_neg (not_lt.mpr hup)]

theorem load_twoGap (fetch : Int → Int → Except RErr (List Row))
    (s e : Int) (symb : String) (df r1 : List Row)
    (hne : df ≠ []) (hlow : minDate df > s) (hup : maxDate df < e)
    (hfetch : fetch s (minDate df) = .ok r1) :
    (loadPriceHistoryFromRemote fetch (.ok (s, e)) (some symb) df).calls
      = [(s, minDate df), (maxDate df, e)] := by
  simp only [loadPriceHistoryFromRemote, if_neg hne, if_pos hlow, hfetch,
    if_pos hup]
  cases hfe : fetch (maxDate df) e with
  | ok r2 => rfl
  | error err => cases err <;> rfl

/-- C1: for a security whose non-empty cached table starts after the
desired start and ends before the desired end, a sync dispatches exactly
two remote calls, the lower gap from the desired start to the cache
minimum date and the upper gap from the cache maximum date to the desired
end, and no dispatched call covers any date strictly inside the cached
range. The lower fetch is assumed to return (its failure path is claim
C5); the second call is counted however the provider answers it. -/
theorem c1_two_gap_dispatch
    (fetch : Int → Int → Except RErr (List Row))
    (s e : Int) (symb : String) (df r1 : List Row)
    (hne : df ≠ []) (hlow : minDate df > s) (hup : maxDate df < e)
    (hfetch : fetch s (minDate df) = .ok r1) :
    (getPriceHistory fetch (.ok (s, e)) (some symb) df false false).calls
        = [(s, minDate df), (maxDate df, e)] ∧
      ∀ c ∈ (getPriceHistory fetch (.ok (s, e)) (some symb) df false
          false).calls,
        ∀ t : Int, minDate df < t → t < maxDate df → ¬ (c.1 ≤ t ∧ t ≤ c.2) := by
  have hcalls := load_twoGap fetch s e symb df r1 hne hlow hup hfetch
  rw [gph_calls, hcalls]
  refine ⟨rfl, ?_⟩
  intro c hc t ht1 ht2
  rcases List.mem_cons.mp hc with h1 | h1
  · subst h1
    rintro ⟨-, h3⟩
    exact absurd h3 (not_le.mpr ht1)
  · rcases List.mem_singleton.mp h1 with rfl
    rintro ⟨h2, -⟩
    exact absurd h2 (not_le.mpr ht2)

/-- C2 corrected: when the non-empty cached table already spans the
desired range, a non local-only sync makes zero remote dispatch calls; the
returned frame is the cached table normalised by sort_index and
drop_duplicates, which equals the cached table itself whenever the cache
is strictly date sorted with pairwise distinct value tuples. The claim as
frozen, returning the cached table itself unconditionally, fails because
drop_duplicates compares only the value columns (see the counterexample). -/
theorem c2_no_gap_short_circuit
    (fetch : Int → Int → Except RErr (List Row))
    (s e : Int) (symb : String) (df : List Row)
    (hne : df ≠ []) (hlow : minDate df ≤ s) (hup : e ≤ maxDate df) :
    (getPriceHistory fetch (.ok (s, e)) (some symb) df false false).calls = [] ∧
      (getPriceHistory fetch (.ok (s, e)) (some symb) df false false).outcome
        = .ok (dedupSortTs df) ∧
      (StrictSortedD df → DistinctVals df →
        (getPriceHistory fetch (.ok (s, e)) (some symb) df false
            false).outcome = .ok df) := by
  have hload := load_noGap fetch s e symb df hne hlow hup
  have hg : getPriceHistory fetch (.ok (s, e)) (some symb) df false false
      = ⟨.ok (dedupSortTs df), [], [dedupSortTs df], 0⟩ := by
    simp only [getPriceHistory, Bool.false_eq_true, if_false, hload]
    simp [hne]
  refine ⟨by rw [hg], by rw [hg], fun hs hv => ?_⟩
  rw [hg]
  simp [dedupSortTs_canonical df hs hv]

/-- C2 counterexample: a two row cache with identical value tuples on two
distinct dates fully spans the desired range, the sync makes zero dispatch
calls, yet the returned frame is not the cached table: drop_duplicates has
removed the second row because pandas ignores the as_of_date index when
comparing rows. -/
theorem c2_counterexample :
    (getPriceHistory (fun _ _ => .ok []) (.ok (1, 2)) (some "X")
        [⟨1, 10⟩, ⟨2, 10⟩] false false).calls = [] ∧
      (getPriceHistory (fun _ _ => .ok []) (.ok (1, 2)) (some "X")
          [⟨1, 10⟩, ⟨2, 10⟩] false false).outcome = .ok [⟨1, 10⟩] ∧
      ([⟨1, 10⟩] : List Row) ≠ [⟨1, 10⟩, ⟨2, 10⟩] := by
  refine ⟨rfl, rfl, by decide⟩

/-- C1 witness: a cache covering dates 3 to 4 synced over the desired
range 1 to 6 dispatches exactly the two gap calls. -/
theorem c1_two_gap_dispatch_witness :
    (getPriceHistory (fun a _ => .ok [⟨a, 100⟩]) (.ok (1, 6)) (some "X")
        [⟨3, 30⟩, ⟨4, 40⟩] false false).calls
        = [(1, minDate [⟨3, 30⟩, ⟨4, 40⟩]), (maxDate [⟨3, 30⟩, ⟨4, 40⟩], 6)] ∧
      ∀ c ∈ (getPriceHistory (fun a _ => .ok [⟨a, 100⟩]) (.ok (1, 6))
          (some "X") [⟨3, 30⟩, ⟨4, 40⟩] false false).calls,
        ∀ t : Int, minDate [⟨3, 30⟩, ⟨4, 40⟩] < t →
          t < maxDate [⟨3, 30⟩, ⟨4, 40⟩] → ¬ (c.1 ≤ t ∧ t ≤ c.2) :=
  c1_two_gap_dispatch (fun a _ => .ok [⟨a, 100⟩]) 1 6 "X" [⟨3, 30⟩, ⟨4, 40⟩]
    [⟨1, 100⟩] (by decide) (by decide) (by decide) rfl

/-- C2 witness: a cache covering dates 1 to 4, strictly sorted with
distinct values, synced over the desired range 2 to 3 triggers no
dispatch call and comes back unchanged. -/
theorem c2_no_gap_short_circuit_witness :
    ((getPriceHistory (fun a _ => .ok [⟨a, 100⟩]) (.ok (2, 3)) (some "X")
        [⟨1, 10⟩, ⟨4, 11⟩] false false).calls = [] ∧
      (getPriceHistory (fun a _ => .ok [⟨a, 100⟩]) (.ok (2, 3)) (some "X")
          [⟨1, 10⟩, ⟨4, 11⟩] false false).outcome
        = .ok (dedupSortTs [⟨1, 10⟩, ⟨4, 11⟩]) ∧
      (StrictSortedD [⟨1, 10⟩, ⟨4, 11⟩] → DistinctVals [⟨1, 10⟩, ⟨4, 11⟩] →
        (getPriceHistory (fun a _ => .ok [⟨a, 100⟩]) (.ok (2, 3)) (some "X")
            [⟨1, 10⟩, ⟨4, 11⟩] false false).outcome = .ok [⟨1, 10⟩, ⟨4, 11⟩])) ∧
      (getPriceHistory (fun a _ => .ok [⟨a, 100⟩]) (.ok (2, 3)) (some "X")
          [⟨1, 10⟩, ⟨4, 11⟩] false false).outcome = .ok [⟨1, 10⟩, ⟨4, 11⟩] :=
  have h := c2_no_gap_short_circuit (fun a _ => .ok [⟨a, 100⟩]) 2 3 "X"
    [⟨1, 10⟩, ⟨4, 11⟩] (by decide) (by decide) (by decide)
  ⟨h, h.2.2 (by decide) (by decide)⟩

/-- C3 evaluated at the failing input: the cache holds a single row for
date 2 with value 10; the lower gap fetch returns fresh rows including
date 2 with value 11; the merged frame keeps both rows for date 2 instead
of exactly one row per as_of_date carrying the fetched value, because
drop_duplicates compares only the value columns and ignores the
as_of_date index. -/
theorem c3_dedup_failing_input :
    (getPriceHistory (fun _ _ => .ok [⟨1, 5⟩, ⟨2, 11⟩]) (.ok (1, 2))
        (some "X") [⟨2, 10⟩] false false).outcome
      = .ok [⟨1, 5⟩, ⟨2, 11⟩, ⟨2, 10⟩] ∧
    ¬ (([⟨1, 5⟩, ⟨2, 11⟩, ⟨2, 10⟩] : List Row).map Row.date).Nodup :=
  ⟨rfl, by decide⟩

/-- C4 corrected: the bulk update walks every known security in order and
returns one success flag per security, provided no sync raises an
exception the sync boundary does not catch; the transient provider errors
are absorbed inside each sync, but the bulk loop itself installs no
handler, so any other exception aborts the whole batch (see the
counterexample). -/
theorem c4_bulk_update (secs : List SecSync)
    (h : ∀ sec ∈ secs, isOkE (syncOutcome sec) = true) :
    updatePriceHistory secs
      = .ok (secs.map (fun sec => (sec.code, syncSuccess sec))) := by
  induction secs with
  | nil => rfl
  | cons s rest ih =>
    have hs : isOkE (syncOutcome s) = true := h s (List.mem_cons_self s rest)
    cases ho : syncOutcome s with
    | error u => rw [ho] at hs; simp [isOkE] at hs
    | ok dfr =>
      simp only [updatePriceHistory]
      rw [show (getPriceHistory s.fetch s.rangeRes s.symbol s.dfLocal false
        false).outcome = syncOutcome s from rfl, ho]
      rw [ih (fun x hx => h x (List.mem_cons_of_mem s hx))]
      simp [syncSuccess, ho]

/-- C4 counterexample: the first security raises an uncaught exception (an
unconfigured entity type propagates a KeyError through the sync), so the
batch aborts with no map at all, even though the second security would
have synced successfully. -/
theorem c4_counterexample :
    updatePriceHistory
        [⟨"A", some "X", .ok (1, 2), fun _ _ => .error .fatal, [⟨5, 1⟩]⟩,
         ⟨"B", some "Y", .ok (1, 2), fun _ _ => .ok [⟨1, 7⟩], []⟩]
      = .error () ∧
    isOkE (syncOutcome ⟨"B", some "Y", .ok (1, 2),
        fun _ _ => .ok [⟨1, 7⟩], []⟩) = true :=
  ⟨rfl, rfl⟩

/-- C4 witness: a batch of one succeeding security and one security whose
provider only raises transient errors still yields a flag for both. -/
theorem c4_bulk_update_witness :
    updatePriceHistory
        [⟨"B", some "Y", .ok (1, 2), fun a _ => .ok [⟨a, 7⟩], []⟩,
         ⟨"C", some "Y", .ok (1, 2), fun _ _ => .error .transient, []⟩]
      = .ok [("B", true), ("C", false)] :=
  (c4_bulk_update
    [⟨"B", some "Y", .ok (1, 2), fun a _ => .ok [⟨a, 7⟩], []⟩,
     ⟨"C", some "Y", .ok (1, 2), fun _ _ => .error .transient, []⟩]
    (by decide)).trans (by decide)

theorem load_transient (fetch : Int → Int → Except RErr (List Row))
    (s e : Int) (symb : String) (df : List Row)
    (hne : df ≠ []) (hfetch : ∀ a b, fetch a b = .error RErr.transient)
    (hgap : minDate df > s ∨ maxDate df < e) :
    ∃ c : Int × Int,
      loadPriceHistoryFromRemote fetch (.ok (s, e)) (some symb) df
        = ⟨.ok [], [c], 1⟩ := by
  by_cases hlow : minDate df > s
  · refine ⟨(s, minDate df), ?_⟩
    simp only [loadPriceHistoryFromRemote, if_neg hne, if_pos hlow,
      hfetch s (minDate df)]
  · have hup : maxDate df < e := hgap.resolve_left hlow
    refine ⟨(maxDate df, e), ?_⟩
    simp only [loadPriceHistoryFromRemote, if_neg hne, if_neg hlow,
      if_pos hup, hfetch (maxDate df) e]

/-- C5 corrected: when the provider raises a transient error on every gap
fetch it attempts over a non-empty canonical cache, the sync catches the
error, emits one warning, makes at least one dispatch attempt, and
returns the pre-existing cached rows unchanged; but it does not leave the
file untouched in the sense of skipping the write: it rewrites the cache
file once, with content identical to the cached rows. -/
theorem c5_transient_returns_cache
    (fetch : Int → Int → Except RErr (List Row))
    (s e : Int) (symb : String) (df : List Row)
    (hne : df ≠ []) (hs : StrictSortedD df) (hv : DistinctVals df)
    (hfetch : ∀ a b, fetch a b = .error RErr.transient)
    (hgap : minDate df > s ∨ maxDate df < e) :
    (getPriceHistory fetch (.ok (s, e)) (some symb) df false false).outcome
        = .ok df ∧
      (getPriceHistory fetch (.ok (s, e)) (some symb) df false
          false).writes = [df] ∧
      (getPriceHistory fetch (.ok (s, e)) (some symb) df false
          false).warns = 1 ∧
      (getPriceHistory fetch (.ok (s, e)) (some symb) df false
          false).calls ≠ [] := by
  obtain ⟨c, hload⟩ := load_transient fetch s e symb df hne hfetch hgap
  have hg : getPriceHistory fetch (.ok (s, e)) (some symb) df false false
      = ⟨.ok (dedupSortTs df), [c], [dedupSortTs df], 1⟩ := by
    simp only [getPriceHistory, Bool.false_eq_true, if_false, hload]
    simp [hne]
  rw [dedupSortTs_canonical df hs hv] at hg
  exact ⟨by rw [hg], by rw [hg], by rw [hg], by rw [hg]; simp⟩

/-- C5 counterexample: the only gap fetch raises a transient error and the
cached rows are returned unchanged, yet the write log is not empty, so
the claim that no write occurs fails: the file is rewritten (with the
same rows). -/
theorem c5_counterexample :
    (getPriceHistory (fun _ _ => .error .transient) (.ok (1, 5)) (some "X")
        [⟨2, 10⟩, ⟨3, 11⟩] false false).outcome = .ok [⟨2, 10⟩, ⟨3, 11⟩] ∧
      (getPriceHistory (fun _ _ => .error .transient) (.ok (1, 5)) (some "X")
          [⟨2, 10⟩, ⟨3, 11⟩] false false).writes = [[⟨2, 10⟩, ⟨3, 11⟩]] ∧
      ([[⟨2, 10⟩, ⟨3, 11⟩]] : List (List Row)) ≠ [] :=
  ⟨rfl, rfl, by decide⟩

/-- C5 witness: a concrete canonical cache with a lower gap and an always
failing provider. -/
theorem c5_transient_returns_cache_witness :
    (getPriceHistory (fun _ _ => .error .transient) (.ok (0, 3)) (some "Y")
        [⟨2, 20⟩, ⟨3, 21⟩] false false).outcome = .ok [⟨2, 20⟩, ⟨3, 21⟩] ∧
      (getPriceHistory (fun _ _ => .error .transient) (.ok (0, 3)) (some "Y")
          [⟨2, 20⟩, ⟨3, 21⟩] false false).writes = [[⟨2, 20⟩, ⟨3, 21⟩]] ∧
      (getPriceHistory (fun _ _ => .error .transient) (.ok (0, 3)) (some "Y")
          [⟨2, 20⟩, ⟨3, 21⟩] false false).warns = 1 ∧
      (getPriceHistory (fun _ _ => .error .transient) (.ok (0, 3)) (some "Y")
          [⟨2, 20⟩, ⟨3, 21⟩] false false).calls ≠ [] :=
  c5_transient_returns_cache (fun _ _ => .error .transient) 0 3 "Y"
    [⟨2, 20⟩, ⟨3, 21⟩] (by decide) (by decide) (by decide)
    (fun _ _ => rfl) (by decide)

/-- C6 corrected: a local-only call makes no dispatch call, emits no
warning, and returns the cached table normalised by sort_index and
drop_duplicates, rewriting the cache file with exactly that normalised
table when the cache is non-empty; when the cached rows are strictly date
sorted with pairwise distinct value tuples the returned table is the
cached table itself and the rewritten content equals what was already on
disk. The claim as frozen fails on caches with repeated value tuples (see
the counterexample). -/
theorem c6_local_only (fetch : Int → Int → Except RErr (List Row))
    (rangeRes : Except RErr (Int × Int)) (symb : Option String)
    (df : List Row) :
    (getPriceHistory fetch rangeRes symb df false true).calls = [] ∧
      (getPriceHistory fetch rangeRes symb df false true).warns = 0 ∧
      (getPriceHistory fetch rangeRes symb df false true).outcome
        = .ok (dedupSortTs df) ∧
      (getPriceHistory fetch rangeRes symb df false true).writes
        = (if df = [] then [] else [dedupSortTs df]) ∧
      (StrictSortedD df → DistinctVals df →
        (getPriceHistory fetch rangeRes symb df false true).outcome
          = .ok df) := by
  by_cases hdf : df = []
  · subst hdf
    exact ⟨rfl, rfl, rfl, rfl, fun _ _ => rfl⟩
  · have hg : getPriceHistory fetch rangeRes symb df false true
        = ⟨.ok (dedupSortTs df), [], [dedupSortTs df], 0⟩ := by
      simp only [getPriceHistory, Bool.false_eq_true, if_false, if_true]
      simp [hdf]
    refine ⟨by rw [hg], by rw [hg], by rw [hg], by rw [hg]; simp [hdf],
      fun hs hv => ?_⟩
    rw [hg]
    simp [dedupSortTs_canonical df hs hv]

/-- C6 counterexample: a strictly sorted cache whose two rows carry the
same value tuple; the local-only call returns a table smaller than the
cache and rewrites the file with that smaller content, so the cached
table is not returned unmodified and the on-disk file is altered. -/
theorem c6_counterexample :
    (getPriceHistory (fun _ _ => .ok []) (.ok (1, 2)) (some "X")
        [⟨1, 10⟩, ⟨2, 10⟩] false true).outcome = .ok [⟨1, 10⟩] ∧
      (getPriceHistory (fun _ _ => .ok []) (.ok (1, 2)) (some "X")
          [⟨1, 10⟩, ⟨2, 10⟩] false true).writes = [[⟨1, 10⟩]] ∧
      (.ok [⟨1, 10⟩] : Except Unit (List Row)) ≠ .ok [⟨1, 10⟩, ⟨2, 10⟩] ∧
      ([[⟨1, 10⟩]] : List (List Row)) ≠ [[⟨1, 10⟩, ⟨2, 10⟩]] :=
  ⟨rfl, rfl, by decide, by decide⟩

/-- C6 witness: a canonical one row cache read local-only comes back
unchanged with no dispatch call. -/
theorem c6_local_only_witness :
    ((getPriceHistory (fun _ _ => .ok []) (.error .transient) none
        [⟨7, 70⟩] false true).calls = [] ∧
      (getPriceHistory (fun _ _ => .ok []) (.error .transient) none
          [⟨7, 70⟩] false true).warns = 0 ∧
      (getPriceHistory (fun _ _ => .ok []) (.error .transient) none
          [⟨7, 70⟩] false true).outcome = .ok (dedupSortTs [⟨7, 70⟩]) ∧
      (getPriceHistory (fun _ _ => .ok []) (.error .transient) none
          [⟨7, 70⟩] false true).writes
        = (if ([⟨7, 70⟩] : List Row) = [] then [] else [dedupSortTs [⟨7, 70⟩]]) ∧
      (StrictSortedD [⟨7, 70⟩] → DistinctVals [⟨7, 70⟩] →
        (getPriceHistory (fun _ _ => .ok []) (.error .transient) none
            [⟨7, 70⟩] false true).outcome = .ok [⟨7, 70⟩])) ∧
      (getPriceHistory (fun _ _ => .ok []) (.error .transient) none
          [⟨7, 70⟩] false true).outcome = .ok [⟨7, 70⟩] :=
  have h := c6_local_only (fun _ _ => .ok []) (.error .transient) none [⟨7, 70⟩]
  ⟨h, h.2.2.2.2 (by decide) (by decide)⟩

/-- C10: when the security lacks the provider specific code attribute, a
non local-only sync emits one warning, makes no dispatch call, does not
raise, and returns the locally cached table deduplicated and sorted. The
cache is assumed to satisfy the file invariant of strictly ascending
dates. -/
theorem c10_missing_symbol (fetch : Int → Int → Except RErr (List Row))
    (rangeRes : Except RErr (Int × Int)) (df : List Row)
    (hs : StrictSortedD df) :
    (getPriceHistory fetch rangeRes none df false false).calls = [] ∧
      (getPriceHistory fetch rangeRes none df false false).warns = 1 ∧
      (getPriceHistory fetch rangeRes none df false false).outcome
        = .ok (dedupSortTs df) := by
  have hload : loadPriceHistoryFromRemote fetch rangeRes none df
      = ⟨.ok df, [], 1⟩ := rfl
  by_cases hdf : df = []
  · subst hdf
    exact ⟨rfl, rfl, rfl⟩
  · have hg : getPriceHistory fetch rangeRes none df false false
        = ⟨.ok (dedupSortTs (df ++ df)), [], [dedupSortTs (df ++ df)], 1⟩ := by
      simp only [getPriceHistory, Bool.false_eq_true, if_false, hload]
      simp [hdf]
    rw [dedupSortTs_double df hs] at hg
    exact ⟨by rw [hg], by rw [hg], by rw [hg]⟩

/-- C10 witness: a two row cache and a missing twelve_data code. -/
theorem c10_missing_symbol_witness :
    (getPriceHistory (fun a _ => .ok [⟨a, 1⟩]) (.ok (0, 9)) none
        [⟨2, 10⟩, ⟨3, 10⟩] false false).calls = [] ∧
      (getPriceHistory (fun a _ => .ok [⟨a, 1⟩]) (.ok (0, 9)) none
          [⟨2, 10⟩, ⟨3, 10⟩] false false).warns = 1 ∧
      (getPriceHistory (fun a _ => .ok [⟨a, 1⟩]) (.ok (0, 9)) none
          [⟨2, 10⟩, ⟨3, 10⟩] false false).outcome
        = .ok (dedupSortTs [⟨2, 10⟩, ⟨3, 10⟩]) :=
  c10_missing_symbol (fun a _ => .ok [⟨a, 1⟩]) (.ok (0, 9))
    [⟨2, 10⟩, ⟨3, 10⟩] (by decide)

theorem windowCount_cons (a b v : Int) (tr : List (Int × Int)) :
    windowCount ((a, b) :: tr) v
      = (if b = v then 1 else 0) + windowCount tr v := by
  by_cases h : b = v
  · simp [windowCount, List.filter_cons, h]
    omega
  · simp [windowCount, List.filter_cons, h]

theorem windowCount_eq_zero (tr : List (Int × Int)) (v : Int)
    (hv : ∀ p ∈ tr, p.2 ≠ v) : windowCount tr v = 0 := by
  simp only [windowCount, List.length_eq_zero, List.filter_eq_nil_iff]
  intro p hp
  simpa using hv p hp

theorem rlStep_spec (k : Nat) (hk : 1 ≤ k) (st : RLState) (now : Int)
    (hc : st.ctr ≤ k) :
    (60 ≤ now - st.ws ∧ respectRateLimit k st now = (⟨now, 1⟩, now)) ∨
    (now - st.ws < 60 ∧ st.ctr < k ∧
      respectRateLimit k st now = (⟨st.ws, st.ctr + 1⟩, now)) ∨
    (now - st.ws < 60 ∧ st.ctr = k ∧
      respectRateLimit k st now = (⟨st.ws + 60, 1⟩, st.ws + 60)) := by
  by_cases hreset : 60 ≤ now - st.ws
  · left
    refine ⟨hreset, ?_⟩
    simp only [respectRateLimit, if_pos hreset]
    rw [if_neg (by omega)]
  · by_cases hfull : st.ctr ≥ k
    · right; right
      have hceq : st.ctr = k := le_antisymm hc hfull
      refine ⟨by omega, hceq, ?_⟩
      simp only [respectRateLimit, if_neg hreset]
      rw [if_pos hfull, if_pos (by omega : (60 : Int) - (now - st.ws) > 0)]
      have ht : now + (60 - (now - st.ws)) = st.ws + 60 := by ring
      rw [ht]
    · right; left
      refine ⟨by omega, by omega, ?_⟩
      simp only [respectRateLimit, if_neg hreset]
      rw [if_neg hfull]

theorem rlTrace_mem (k : Nat) (hk : 1 ≤ k) :
    ∀ (ds : List Nat) (st : RLState) (prev : Int),
      st.ws ≤ prev → st.ctr ≤ k →
      ∀ p ∈ rlTrace k st prev ds,
        st.ws ≤ p.2 ∧ p.2 ≤ p.1 ∧ p.1 < p.2 + 60 := by
  intro ds
  induction ds with
  | nil => intro st prev _ _ p hp; simp [rlTrace] at hp
  | cons d tail ih =>
    intro st prev hwp hc p hp
    have hd : (0 : Int) ≤ (d : Int) := Int.ofNat_nonneg d
    have hnow : st.ws ≤ prev + (d : Int) := by omega
    rcases rlStep_spec k hk st (prev + (d : Int)) hc with
      ⟨h60, heq⟩ | ⟨h60, hlt, heq⟩ | ⟨h60, hceq, heq⟩
    · simp only [rlTrace, heq] at hp
      rcases List.mem_cons.mp hp with rfl | hp
      · exact ⟨hnow, le_refl _, by omega⟩
      · have hb := ih ⟨prev + (d : Int), 1⟩ (prev + (d : Int))
          (le_refl _) hk p hp
        exact ⟨le_trans hnow hb.1, hb.2⟩
    · simp only [rlTrace, heq] at hp
      rcases List.mem_cons.mp hp with rfl | hp
      · exact ⟨le_refl _, hnow, by omega⟩
      · exact ih ⟨st.ws, st.ctr + 1⟩ (prev + (d : Int)) hnow
          (Nat.succ_le_of_lt hlt) p hp
    · simp only [rlTrace, heq] at hp
      rcases List.mem_cons.mp hp with rfl | hp
      · exact ⟨by omega, le_refl _, by omega⟩
      · have hb := ih ⟨st.ws + 60, 1⟩ (st.ws + 60) (le_refl _) hk p hp
        dsimp only at hb
        exact ⟨by omega, hb.2⟩

theorem rlTrace_windowCount (k : Nat) (hk : 1 ≤ k) :
    ∀ (ds : List Nat) (st : RLState) (prev : Int),
      st.ws ≤ prev → st.ctr ≤ k →
      ∀ v : Int,
        windowCount (rlTrace k st prev ds) v
          ≤ if v = st.ws then k - st.ctr else k := by
  intro ds
  induction ds with
  | nil =>
    intro st prev _ _ v
    simp only [rlTrace, windowCount, List.filter_nil, List.length_nil]
    split <;> omega
  | cons d tail ih =>
    intro st prev hwp hc v
    have hd : (0 : Int) ≤ (d : Int) := Int.ofNat_nonneg d
    have hnow : st.ws ≤ prev + (d : Int) := by omega
    rcases rlStep_spec k hk st (prev + (d : Int)) hc with
      ⟨h60, heq⟩ | ⟨h60, hlt, heq⟩ | ⟨h60, hceq, heq⟩
    · -- window expired: reset to the arrival instant
      simp only [rlTrace, heq, windowCount_cons]
      have hrest := ih ⟨prev + (d : Int), 1⟩ (prev + (d : Int)) (le_refl _) hk v
      dsimp only at hrest
      by_cases hv : v = prev + (d : Int)
      · rw [if_pos hv.symm]
        rw [if_pos hv] at hrest
        have : v ≠ st.ws := by omega
        rw [if_neg this]
        omega
      · rw [if_neg (fun h => hv h.symm)]
        rw [if_neg hv] at hrest
        by_cases hvw : v = st.ws
        · have hzero : windowCount
              (rlTrace k ⟨prev + (d : Int), 1⟩ (prev + (d : Int)) tail) v = 0 := by
            apply windowCount_eq_zero
            intro p hp
            have hb := rlTrace_mem k hk tail ⟨prev + (d : Int), 1⟩
              (prev + (d : Int)) (le_refl _) hk p hp
            dsimp only at hb
            omega
          rw [if_pos hvw]
          omega
        · rw [if_neg hvw]
          omega
    · -- inside the window with room left: same window start
      simp only [rlTrace, heq, windowCount_cons]
      have hrest := ih ⟨st.ws, st.ctr + 1⟩ (prev + (d : Int)) hnow
        (Nat.succ_le_of_lt hlt) v
      dsimp only at hrest
      by_cases hv : v = st.ws
      · rw [if_pos hv.symm, if_pos hv]
        rw [if_pos hv] at hrest
        omega
      · rw [if_neg (fun h => hv h.symm), if_neg hv]
        rw [if_neg hv] at hrest
        omega
    · -- counter full: sleep to the window end, then a fresh window
      simp only [rlTrace, heq, windowCount_cons]
      have hrest := ih ⟨st.ws + 60, 1⟩ (st.ws + 60) (le_refl _) hk v
      dsimp only at hrest
      by_cases hv : v = st.ws + 60
      · rw [if_pos hv.symm]
        rw [if_pos hv] at hrest
        have : v ≠ st.ws := by omega
        rw [if_neg this]
        omega
      · rw [if_neg (fun h => hv h.symm)]
        rw [if_neg hv] at hrest
        by_cases hvw : v = st.ws
        · have hzero : windowCount
              (rlTrace k ⟨st.ws + 60, 1⟩ (st.ws + 60) tail) v = 0 := by
            apply windowCount_eq_zero
            intro p hp
            have hb := rlTrace_mem k hk tail ⟨st.ws + 60, 1⟩
              (st.ws + 60) (le_refl _) hk p hp
            dsimp only at hb
            omega
          rw [if_pos hvw]
          omega
        · rw [if_neg hvw]
          omega

/-- C7 corrected: the limiter is a fixed window counter, not a sliding
window one. For every causal arrival sequence, every call is stamped with
the window start current when it was issued, each call falls within the
60 seconds that follow its window start, and at most k calls share one
window start; the mechanism matches the claim (reset of an expired
window, blocking sleep when the counter is full, increment on every
call), but the sliding window bound the claim states fails across a
window boundary (see the counterexample, where 15 calls of a k = 8
limiter fall inside one sliding minute). -/
theorem c7_fixed_window (k : Nat) (hk : 1 ≤ k) (w0 : Int) (ds : List Nat) :
    (∀ v : Int, windowCount (rlTrace k ⟨w0, 0⟩ w0 ds) v ≤ k) ∧
      ∀ p ∈ rlTrace k ⟨w0, 0⟩ w0 ds, p.2 ≤ p.1 ∧ p.1 < p.2 + 60 := by
  constructor
  · intro v
    have h := rlTrace_windowCount k hk ds ⟨w0, 0⟩ w0 (le_refl _)
      (Nat.zero_le k) v
    by_cases hv : v = w0
    · rw [if_pos hv] at h; omega
    · rw [if_neg hv] at h; omega
  · intro p hp
    exact (rlTrace_mem k hk ds ⟨w0, 0⟩ w0 (le_refl _) (Nat.zero_le k) p hp).2

/-- C7 counterexample: with the free tier limit of 8 calls per minute,
seven calls arriving 59 seconds into a window followed by the blocked
eighth produce 15 issued calls inside the single sliding minute that
opens just after second 0, violating the claimed sliding window bound. -/
theorem c7_counterexample :
    slidingCount
        (rlTrace 8 ⟨0, 0⟩ 0 [0, 59, 0, 0, 0, 0, 0, 0, 0, 0, 0, 0, 0, 0, 0, 0])
        0 = 15 ∧ 8 < 15 := by
  exact ⟨by decide, by decide⟩

/-- C7 witness: a short concrete arrival sequence for the k = 8 limiter. -/
theorem c7_fixed_window_witness :
    (∀ v : Int, windowCount (rlTrace 8 ⟨0, 0⟩ 0 [0, 0, 30]) v ≤ 8) ∧
      ∀ p ∈ rlTrace 8 ⟨0, 0⟩ 0 [0, 0, 30], p.2 ≤ p.1 ∧ p.1 < p.2 + 60 :=
  c7_fixed_window 8 (by decide) 0 [0, 0, 30]

theorem getDatesAux_unfold (delta : Nat) (se cs : Int) :
    getDatesAux delta se cs
      = if cs ≤ se then
          (cs, min (cs + (delta : Int)) se)
            :: getDatesAux delta se (min (cs + (delta : Int)) se + dayM)
        else [] := by
  rw [getDatesAux]
  by_cases h : cs ≤ se
  · rw [dif_pos h, if_pos h]
  · rw [dif_neg h, if_neg h]

theorem getDatesAux_eq_pos (delta : Nat) (se cs : Int) (h : cs ≤ se) :
    getDatesAux delta se cs
      = (cs, min (cs + (delta : Int)) se)
        :: getDatesAux delta se (min (cs + (delta : Int)) se + dayM) := by
  rw [getDatesAux_unfold, if_pos h]

theorem getDatesAux_eq_neg (delta : Nat) (se cs : Int) (h : ¬ cs ≤ se) :
    getDatesAux delta se cs = [] := by
  rw [getDatesAux_unfold, if_neg h]

theorem getDatesAux_mem (delta : Nat) (se : Int) :
    ∀ (n : Nat) (cs : Int), (se + 1 - cs).toNat ≤ n →
      ∀ w ∈ getDatesAux delta se cs,
        cs ≤ w.1 ∧ w.1 ≤ w.2 ∧ w.2 ≤ se := by
  intro n
  induction n with
  | zero =>
    intro cs hn w hw
    rw [getDatesAux_eq_neg delta se cs (by omega)] at hw
    simp at hw
  | succ n ih =>
    intro cs hn w hw
    by_cases hcs : cs ≤ se
    · rw [getDatesAux_eq_pos delta se cs hcs] at hw
      have hmin : cs ≤ min (cs + (delta : Int)) se := by omega
      rcases List.mem_cons.mp hw with rfl | hw
      · exact ⟨le_refl _, hmin, min_le_right _ _⟩
      · have hb := ih (min (cs + (delta : Int)) se + dayM)
          (by simp only [dayM]; omega) w hw
        refine ⟨?_, hb.2.1, hb.2.2⟩
        have : (0 : Int) < dayM := by simp [dayM]
        omega
    · rw [getDatesAux_eq_neg delta se cs hcs] at hw
      simp at hw

theorem getDatesAux_head (delta : Nat) (se cs : Int) :
    ∀ w ∈ (getDatesAux delta se cs).head?, w.1 = cs := by
  by_cases hcs : cs ≤ se
  · rw [getDatesAux_eq_pos delta se cs hcs]
    intro w hw
    simp only [List.head?_cons, Option.mem_def, Option.some.injEq] at hw
    rw [← hw]
  · rw [getDatesAux_eq_neg delta se cs hcs]
    intro w hw
    simp at hw

theorem getDatesAux_chain (delta : Nat) (se : Int) :
    ∀ (n : Nat) (cs : Int), (se + 1 - cs).toNat ≤ n →
      List.Chain' (fun a b => b.1 = a.2 + dayM) (getDatesAux delta se cs) := by
  intro n
  induction n with
  | zero =>
    intro cs hn
    rw [getDatesAux_eq_neg delta se cs (by omega)]
    exact List.chain'_nil
  | succ n ih =>
    intro cs hn
    by_cases hcs : cs ≤ se
    · rw [getDatesAux_eq_pos delta se cs hcs]
      have hmin : cs ≤ min (cs + (delta : Int)) se := by omega
      apply List.Chain'.cons'
      · exact ih _ (by simp only [dayM]; omega)
      · intro y hy
        exact getDatesAux_head delta se _ y hy
    · rw [getDatesAux_eq_neg delta se cs hcs]
      exact List.chain'_nil

theorem getDatesAux_pairwise (delta : Nat) (se : Int) :
    ∀ (n : Nat) (cs : Int), (se + 1 - cs).toNat ≤ n →
      List.Pairwise (fun a b => a.2 < b.1) (getDatesAux delta se cs) := by
  intro n
  induction n with
  | zero =>
    intro cs hn
    rw [getDatesAux_eq_neg delta se cs (by omega)]
    exact List.Pairwise.nil
  | succ n ih =>
    intro cs hn
    by_cases hcs : cs ≤ se
    · rw [getDatesAux_eq_pos delta se cs hcs]
      have hmin : cs ≤ min (cs + (delta : Int)) se := by omega
      refine List.Pairwise.cons ?_ (ih _ (by simp only [dayM]; omega))
      intro w hw
      have hb := getDatesAux_mem delta se n _ (by simp only [dayM]; omega) w hw
      have : (0 : Int) < dayM := by simp [dayM]
      omega
    · rw [getDatesAux_eq_neg delta se cs hcs]
      exact List.Pairwise.nil

theorem getDatesAux_last (delta : Nat) (hd : (1440 : Int) ∣ (delta : Int))
    (se : Int) :
    ∀ (n : Nat) (cs : Int), (se + 1 - cs).toNat ≤ n → cs ≤ se →
      (1440 : Int) ∣ (se - cs) →
      ∃ s0 : Int, (getDatesAux delta se cs).getLast? = some (s0, se) := by
  intro n
  induction n with
  | zero => intro cs hn hcs _; omega
  | succ n ih =>
    intro cs hn hcs hal
    rw [getDatesAux_eq_pos delta se cs hcs]
    by_cases hbig : se ≤ cs + (delta : Int)
    · have hmin : min (cs + (delta : Int)) se = se := min_eq_right hbig
      rw [hmin]
      rw [getDatesAux_eq_neg delta se (se + dayM) (by simp [dayM])]
      exact ⟨cs, rfl⟩
    · have hmin : min (cs + (delta : Int)) se = cs + (delta : Int) :=
        min_eq_left (by omega)
      rw [hmin]
      have hnext : cs + (delta : Int) + dayM ≤ se := by
        simp only [dayM]
        omega
      obtain ⟨s0, hlast⟩ := ih (cs + (delta : Int) + dayM)
        (by simp only [dayM] at hnext ⊢; omega) hnext
        (by simp only [dayM] at hnext ⊢; omega)
      refine ⟨s0, ?_⟩
      cases hrest : getDatesAux delta se (cs + (delta : Int) + dayM) with
      | nil => rw [hrest] at hlast; simp at hlast
      | cons y t =>
        rw [hrest] at hlast
        rw [List.getLast?_cons_cons]
        exact hlast

theorem getDatesAux_cover (delta : Nat) (hd : (1440 : Int) ∣ (delta : Int))
    (se : Int) :
    ∀ (n : Nat) (cs t : Int), (se + 1 - cs).toNat ≤ n → cs ≤ t → t ≤ se →
      (1440 : Int) ∣ (t - cs) →
      ∃ w ∈ getDatesAux delta se cs, w.1 ≤ t ∧ t ≤ w.2 := by
  intro n
  induction n with
  | zero => intro cs t hn hct hts _; omega
  | succ n ih =>
    intro cs t hn hct hts hal
    have hcs : cs ≤ se := le_trans hct hts
    rw [getDatesAux_eq_pos delta se cs hcs]
    by_cases hle : t ≤ min (cs + (delta : Int)) se
    · exact ⟨(cs, min (cs + (delta : Int)) se),
        List.mem_cons_self _ _, hct, hle⟩
    · have hmin : min (cs + (delta : Int)) se = cs + (delta : Int) := by
        rcases le_total (cs + (delta : Int)) se with h | h
        · exact min_eq_left h
        · rw [min_eq_right h] at hle; omega
      rw [hmin] at hle ⊢
      have hstep : cs + (delta : Int) + dayM ≤ t := by
        simp only [dayM]
        omega
      obtain ⟨w, hw, hw1, hw2⟩ := ih (cs + (delta : Int) + dayM) t
        (by simp only [dayM]; omega) hstep hts
        (by simp only [dayM]; omega)
      exact ⟨w, List.mem_cons_of_mem _ hw, hw1, hw2⟩

/-- C8 corrected: for a daily plan over a day aligned range with start at
or before end, the produced windows are non-overlapping, consecutive
windows abut at exactly one day steps, every day aligned instant of the
range plus the two day buffer lies in some window, each window stays
inside the buffered range, and the final window ends exactly at the end
date plus the two day buffer. For an intraday plan the windows are still
non-overlapping, but the claim of gap free coverage fails: the loop steps
one full day past each window end while the window span is counted in
minutes, leaving uncovered minutes (see the counterexample). -/
theorem c8_window_planner (os : Nat) (s e : Int)
    (hse : s ≤ e) (hal : (1440 : Int) ∣ (e - s)) :
    List.Chain' (fun a b => b.1 = a.2 + dayM) (getDates os s e false) ∧
      List.Pairwise (fun a b => a.2 < b.1) (getDates os s e false) ∧
      (∀ w ∈ getDates os s e false,
        s ≤ w.1 ∧ w.1 ≤ w.2 ∧ w.2 ≤ e + 2 * dayM) ∧
      (∃ s0 : Int,
        (getDates os s e false).getLast? = some (s0, e + 2 * dayM)) ∧
      (∀ t : Int, s ≤ t → t ≤ e + 2 * dayM → (1440 : Int) ∣ (t - s) →
        ∃ w ∈ getDates os s e false, w.1 ≤ t ∧ t ≤ w.2) ∧
      List.Pairwise (fun a b => a.2 < b.1) (getDates os s e true) := by
  have hunf : getDates os s e false
      = getDatesAux ((os - 1) * 1440) (e + 2 * dayM) s := by
    simp [getDates]
  have hunf2 : getDates os s e true = getDatesAux os (e + 2 * dayM) s := by
    simp [getDates]
  have hd : (1440 : Int) ∣ ((((os - 1) * 1440 : Nat)) : Int) := by
    refine ⟨((os - 1 : Nat) : Int), ?_⟩
    push_cast
    ring
  have hse2 : s ≤ e + 2 * dayM := by simp only [dayM]; omega
  have hal2 : (1440 : Int) ∣ (e + 2 * dayM - s) := by
    simp only [dayM]
    omega
  refine ⟨?_, ?_, ?_, ?_, ?_, ?_⟩
  · rw [hunf]
    exact getDatesAux_chain _ _ ((e + 2 * dayM) + 1 - s).toNat s (le_refl _)
  · rw [hunf]
    exact getDatesAux_pairwise _ _ ((e + 2 * dayM) + 1 - s).toNat s (le_refl _)
  · intro w hw
    rw [hunf] at hw
    exact getDatesAux_mem _ _ ((e + 2 * dayM) + 1 - s).toNat s (le_refl _) w hw
  · rw [hunf]
    exact getDatesAux_last _ hd _ ((e + 2 * dayM) + 1 - s).toNat s (le_refl _)
      hse2 hal2
  · intro t ht1 ht2 ht3
    rw [hunf]
    exact getDatesAux_cover _ hd _ ((e + 2 * dayM) + 1 - s).toNat s t
      (le_refl _) ht1 ht2 ht3
  · rw [hunf2]
    exact getDatesAux_pairwise _ _ ((e + 2 * dayM) + 1 - s).toNat s (le_refl _)

/-- C8 counterexample: with the 5000 row output size, minute 6000 lies
inside the requested intraday range from 0 to 10000 yet inside none of
the planned windows: the first window ends at minute 5000 and the next
starts a full day later at minute 6440, so the intraday plan leaves gaps
and does not cover the range. -/
theorem c8_counterexample :
    getDates 5000 0 10000 true
        = [(0, 5000), (6440, 11440), (12880, 12880)] ∧
      (0 : Int) ≤ 6000 ∧ (6000 : Int) ≤ 10000 ∧
      ∀ w ∈ getDates 5000 0 10000 true, ¬ (w.1 ≤ 6000 ∧ 6000 ≤ w.2) := by
  have h0 : getDates 5000 0 10000 true = getDatesAux 5000 12880 0 := by
    simp [getDates, dayM]
  have h1 : getDatesAux 5000 12880 0
      = (0, 5000) :: getDatesAux 5000 12880 6440 := by
    rw [getDatesAux_eq_pos 5000 12880 0 (by norm_num)]
    norm_num [dayM, min_def]
  have h2 : getDatesAux 5000 12880 6440
      = (6440, 11440) :: getDatesAux 5000 12880 12880 := by
    rw [getDatesAux_eq_pos 5000 12880 6440 (by norm_num)]
    norm_num [dayM, min_def]
  have h3 : getDatesAux 5000 12880 12880
      = (12880, 12880) :: getDatesAux 5000 12880 14320 := by
    rw [getDatesAux_eq_pos 5000 12880 12880 (by norm_num)]
    norm_num [dayM, min_def]
  have h4 : getDatesAux 5000 12880 14320 = [] :=
    getDatesAux_eq_neg 5000 12880 14320 (by norm_num)
  have hlist : getDates 5000 0 10000 true
      = [(0, 5000), (6440, 11440), (12880, 12880)] := by
    rw [h0, h1, h2, h3, h4]
  refine ⟨hlist, by norm_num, by norm_num, ?_⟩
  rw [hlist]
  intro w hw
  rcases List.mem_cons.mp hw with rfl | hw
  · rintro ⟨-, hb⟩; omega
  rcases List.mem_cons.mp hw with rfl | hw
  · rintro ⟨ha, -⟩; omega
  rcases List.mem_cons.mp hw with rfl | hw
  · rintro ⟨ha, -⟩; omega
  · simp at hw

/-- C8 witness: the daily plan for the aligned minute range 0 to 1440. -/
theorem c8_window_planner_witness :
    List.Chain' (fun a b => b.1 = a.2 + dayM) (getDates 5000 0 1440 false) ∧
      List.Pairwise (fun a b => a.2 < b.1) (getDates 5000 0 1440 false) ∧
      (∀ w ∈ getDates 5000 0 1440 false,
        (0 : Int) ≤ w.1 ∧ w.1 ≤ w.2 ∧ w.2 ≤ 1440 + 2 * dayM) ∧
      (∃ s0 : Int,
        (getDates 5000 0 1440 false).getLast? = some (s0, 1440 + 2 * dayM)) ∧
      (∀ t : Int, (0 : Int) ≤ t → t ≤ 1440 + 2 * dayM →
        (1440 : Int) ∣ (t - 0) →
        ∃ w ∈ getDates 5000 0 1440 false, w.1 ≤ t ∧ t ≤ w.2) ∧
      List.Pairwise (fun a b => a.2 < b.1) (getDates 5000 0 1440 true) :=
  c8_window_planner 5000 0 1440 (by norm_num) (by norm_num)

/-- C9 corrected: the cache file path the source derives is
base, series kind, provider name, category, then
symbol-frequency-seriesKind.csv: the series kind segment comes before
the provider name segment, not after it, and the symbol is the literal
string code for the local provider and the literal string figi_code for
the open_figi provider rather than the corresponding attribute values;
only the remaining providers use the provider specific code attribute,
slash stripped when present and truthy, rendered None when missing. -/
theorem c9_file_path (base : String) (sec : SecurityAttrs)
    (dsName : String) (intraday : Bool) (seriesType : String) :
    getFilePath base sec dsName intraday seriesType
      = base ++ "/" ++ seriesType ++ "/" ++ dsName ++ "/" ++ sec.entityType
        ++ "/" ++ actualFileSymbol sec dsName ++ "-"
        ++ (if intraday then "intraday" else "daily") ++ "-" ++ seriesType
        ++ ".csv" := by
  by_cases h1 : dsName = "local"
  · simp [getFilePath, actualFileSymbol, h1, String.append_assoc]
    rfl
  · by_cases h2 : dsName = "open_figi"
    · simp [getFilePath, actualFileSymbol, h1, h2, String.append_assoc]
      rfl
    · cases hc : sec.codes dsName with
      | none =>
        simp [getFilePath, actualFileSymbol, h1, h2, hc, String.append_assoc]
        rfl
      | some sv =>
        by_cases hsv : sv = ""
        · simp [getFilePath, actualFileSymbol, h1, h2, hc, hsv,
            String.append_assoc]
          rfl
        · simp [getFilePath, actualFileSymbol, h1, h2, hc, hsv,
            String.append_assoc]

/-- C9 counterexample: for a security with code TEST of entity type
equity, the source derives data/price_history/local/equity/
code-daily-price_history.csv for the local datasource, while the path the
claim describes would put the provider segment first and use the code
value TEST; the two paths differ. -/
theorem c9_counterexample :
    getFilePath "data" ⟨"TEST", "equity", some "FIGI1", fun _ => none⟩
        "local" false "price_history"
        = "data/price_history/local/equity/code-daily-price_history.csv" ∧
      claimFilePathC9 "data" ⟨"TEST", "equity", some "FIGI1", fun _ => none⟩
          "local" false "price_history"
        = "data/local/price_history/equity/TEST-daily-price_history.csv" ∧
      getFilePath "data" ⟨"TEST", "equity", some "FIGI1", fun _ => none⟩
          "local" false "price_history"
        ≠ claimFilePathC9 "data" ⟨"TEST", "equity", some "FIGI1",
            fun _ => none⟩ "local" false "price_history" := by
  refine ⟨rfl, rfl, by decide⟩

end Fbinv
